import Mathlib

/-!
Verification of the `kvs` log-structured key-value store (src/lib.rs).

The engine appends JSON-serialized records (`serde_json` encoding of the
`Commands` enum) to a single log file `kvs.log`, keeps an in-memory index
from keys to byte ranges, and compacts the log into `kvs.compact.log`
when the stale-byte counter exceeds a threshold.

Shallow embedding conventions:
* file contents are `List Char` (one element per encoded byte; all record
  syntax is ASCII, and key/value payload characters occupy one slot each,
  so offsets and lengths agree with the byte accounting of the source for
  ASCII data and are consistently unit-for-unit otherwise);
* the `HashMap` index is an association list (`insert` replaces in place,
  a fresh key is appended; iteration order is the list order — a
  determinization of the hash-map iteration order, which no claim depends
  on);
* I/O failures (`Io` errors) are not modelled: file operations are total;
* the buffered writer's position always equals the log length, which is
  the source's own invariant (writer opened with `seek(End)` and only
  appended to).
-/

deriving instance DecidableEq for Except

namespace Kvs

/-! ### Characters and JSON string escaping (model of serde_json's codec) -/

/-- The opening brace character, kept as a named constant. -/
def lbrace : Char := Char.ofNat 123

/-- The closing brace character, kept as a named constant. -/
def rbrace : Char := Char.ofNat 125

/-- JSON insignificant whitespace accepted by serde_json between tokens. -/
def isWsChar (c : Char) : Bool :=
  c == ' ' || c == Char.ofNat 9 || c == Char.ofNat 10 || c == Char.ofNat 13

/-- Lowercase hex digit, as emitted by serde_json's `\u00XX` escapes. -/
def hexLowerDigit (n : Nat) : Char :=
  if n < 10 then Char.ofNat (48 + n) else Char.ofNat (87 + n)

/-- Value of a hex digit character. -/
def hexVal (c : Char) : Option Nat :=
  if 48 ≤ c.toNat ∧ c.toNat ≤ 57 then some (c.toNat - 48)
  else if 97 ≤ c.toNat ∧ c.toNat ≤ 102 then some (c.toNat - 87)
  else if 65 ≤ c.toNat ∧ c.toNat ≤ 70 then some (c.toNat - 55)
  else none

/-- serde_json's escaping of a single character inside a JSON string:
`"` and `\` get a backslash escape, the five control characters with
short escapes use them, the remaining control characters use `\u00XX`,
and everything else is emitted verbatim. -/
def escChar (c : Char) : List Char :=
  if c = '"' then ['\\', '"']
  else if c = '\\' then ['\\', '\\']
  else if c.toNat = 8 then ['\\', 'b']
  else if c.toNat = 9 then ['\\', 't']
  else if c.toNat = 10 then ['\\', 'n']
  else if c.toNat = 12 then ['\\', 'f']
  else if c.toNat = 13 then ['\\', 'r']
  else if c.toNat < 32 then
    let hi := hexLowerDigit (c.toNat / 16)
    let lo := hexLowerDigit (c.toNat % 16)
    '\\' :: 'u' :: '0' :: '0' :: hi :: [lo]
  else [c]

/-- JSON string literal for `s`: quote, escaped characters, quote. -/
def encStr (s : String) : List Char :=
  '"' :: (s.data.map escChar).flatten ++ ['"']

/-! ### Records

The Rust `Commands` enum (src/lib.rs lines 16-21); serde's externally
tagged representation serializes `Set { key, value }` as
`{"Set":{"key":...,"value":...}}` and likewise for `Get`/`Rm`. -/

inductive Commands where
  | Set (key value : String)
  | Get (key : String)
  | Rm (key : String)
  deriving DecidableEq

/-- serde_json serialization of one record (compact output, struct fields
in declaration order). -/
def serCmd : Commands → List Char
  | .Set k v =>
      lbrace :: encStr "Set" ++ ':' :: lbrace :: encStr "key" ++ ':' :: encStr k
        ++ ',' :: encStr "value" ++ ':' :: encStr v ++ [rbrace, rbrace]
  | .Get k =>
      lbrace :: encStr "Get" ++ ':' :: lbrace :: encStr "key" ++ ':' :: encStr k
        ++ [rbrace, rbrace]
  | .Rm k =>
      lbrace :: encStr "Rm" ++ ':' :: lbrace :: encStr "key" ++ ':' :: encStr k
        ++ [rbrace, rbrace]

/-! ### Parser (model of serde_json's Deserializer for `Commands`)

The deserializer is modelled on the concrete syntax the engine itself
writes: externally tagged variant, struct fields in serialization order,
JSON whitespace tolerated between tokens, full JSON string unescaping
(single non-surrogate `\uXXXX` escapes; surrogate pairs never occur in
data written by this engine and are rejected). -/

/-- Drop leading JSON whitespace. -/
def skipWs (s : List Char) : List Char := s.dropWhile isWsChar

/-- Expect the literal characters `lit` at the head of `s`. -/
def expectChars : List Char → List Char → Option (List Char)
  | [], s => some s
  | _ :: _, [] => none
  | c :: cs, x :: xs => if x = c then expectChars cs xs else none

/-- Inverse of the two-character escapes. -/
def escAnti (e : Char) : Option Char :=
  if e = '"' then some '"'
  else if e = '\\' then some '\\'
  else if e = '/' then some '/'
  else if e = 'b' then some (Char.ofNat 8)
  else if e = 'f' then some (Char.ofNat 12)
  else if e = 'n' then some (Char.ofNat 10)
  else if e = 'r' then some (Char.ofNat 13)
  else if e = 't' then some (Char.ofNat 9)
  else none

/-- Decode a `\uXXXX` escape: the four hex digits and the remainder.
Surrogate code points are rejected (serde would look for a pair; the
engine never writes one). -/
def parseHexEsc (s : List Char) : Option (Char × List Char) :=
  match s with
  | h1 :: h2 :: h3 :: h4 :: rest =>
    match hexVal h1, hexVal h2, hexVal h3, hexVal h4 with
    | some a, some b, some c1, some d =>
      let n := ((a * 16 + b) * 16 + c1) * 16 + d
      if n < 55296 ∨ 57344 ≤ n then some (Char.ofNat n, rest) else none
    | _, _, _, _ => none
  | _ => none

/-- Decode one escape sequence (the characters after the backslash). -/
def parseEsc (s : List Char) : Option (Char × List Char) :=
  match s with
  | [] => none
  | e :: rest =>
    if e = 'u' then parseHexEsc rest
    else
      match escAnti e with
      | some c1 => some (c1, rest)
      | none => none

/-- Parse the body of a JSON string after the opening quote, returning
the decoded characters and the remainder after the closing quote.
`fuel` bounds the number of decoding steps; each step consumes at least
one input character, so `s.length` fuel always suffices. -/
def parseStrBody : Nat → List Char → Option (List Char × List Char)
  | 0, _ => none
  | _ + 1, [] => none
  | fuel + 1, c :: rest =>
    if c = '"' then some ([], rest)
    else if c = '\\' then
      match parseEsc rest with
      | some (c1, rest1) => (parseStrBody fuel rest1).map (fun p => (c1 :: p.1, p.2))
      | none => none
    else if c.toNat < 32 then none
    else (parseStrBody fuel rest).map (fun p => (c :: p.1, p.2))

/-- Parse a JSON string literal. -/
def parseJString (s : List Char) : Option (String × List Char) :=
  match s with
  | c :: rest =>
    if c = '"' then (parseStrBody rest.length rest).map (fun p => (String.mk p.1, p.2))
    else none
  | [] => none

/-- Parse the struct body of `Rm`/`Get`: an object with the single field
`key`. -/
def parseInner1 (s : List Char) : Option (String × List Char) := do
  let s ← expectChars [lbrace] (skipWs s)
  let (f, s) ← parseJString (skipWs s)
  if f = "key" then
    let s ← expectChars [':'] (skipWs s)
    let (k, s) ← parseJString (skipWs s)
    let s ← expectChars [rbrace] (skipWs s)
    some (k, s)
  else none

/-- Parse the struct body of `Set`: an object with fields `key` and
`value`. -/
def parseInner2 (s : List Char) : Option (String × String × List Char) := do
  let s ← expectChars [lbrace] (skipWs s)
  let (f1, s) ← parseJString (skipWs s)
  if f1 = "key" then
    let s ← expectChars [':'] (skipWs s)
    let (k, s) ← parseJString (skipWs s)
    let s ← expectChars [','] (skipWs s)
    let (f2, s) ← parseJString (skipWs s)
    if f2 = "value" then
      let s ← expectChars [':'] (skipWs s)
      let (v, s) ← parseJString (skipWs s)
      let s ← expectChars [rbrace] (skipWs s)
      some (k, v, s)
    else none
  else none

/-- Parse one serialized `Commands` record, returning it with the
unconsumed remainder of the stream. -/
def parseOne (s : List Char) : Option (Commands × List Char) := do
  let s ← expectChars [lbrace] (skipWs s)
  let (name, s) ← parseJString (skipWs s)
  let s ← expectChars [':'] (skipWs s)
  if name = "Set" then
    let (k, v, s) ← parseInner2 s
    let s ← expectChars [rbrace] (skipWs s)
    some (.Set k v, s)
  else if name = "Get" then
    let (k, s) ← parseInner1 s
    let s ← expectChars [rbrace] (skipWs s)
    some (.Get k, s)
  else if name = "Rm" then
    let (k, s) ← parseInner1 s
    let s ← expectChars [rbrace] (skipWs s)
    some (.Rm k, s)
  else none

/-! ### Engine state (src/lib.rs `KvStore` and helpers) -/

/-- Error kinds surfaced by the engine (`failure::Error` values in the
source, classified as the spec's three kinds). -/
inductive KvError where
  | Io
  | Corruption
  | KeyNotFound
  deriving DecidableEq

/-- Byte range of a record in the log (src/lib.rs `CommandPos`). -/
structure CommandPos where
  pos : Nat
  len : Nat
  deriving DecidableEq

/-- The in-memory index, `HashMap<String, CommandPos>` modelled as an
association list with unique keys. -/
abbrev Index := List (String × CommandPos)

/-- `HashMap::get`. -/
def lookupIdx : Index → String → Option CommandPos
  | [], _ => none
  | (k1, cp) :: rest, k => if k1 = k then some cp else lookupIdx rest k

/-- `HashMap::insert`: returns the previous entry (if any) and the
updated map; a fresh key is appended at the end of the list. -/
def insertIdx : Index → String → CommandPos → Option CommandPos × Index
  | [], k, cp => (none, [(k, cp)])
  | (k1, cp1) :: rest, k, cp =>
    if k1 = k then (some cp1, (k, cp) :: rest)
    else
      let r := insertIdx rest k cp
      (r.1, (k1, cp1) :: r.2)

/-- `HashMap::remove`: returns the removed entry (if any) and the
updated map. -/
def removeIdx : Index → String → Option CommandPos × Index
  | [], _ => (none, [])
  | (k1, cp1) :: rest, k =>
    if k1 = k then (some cp1, rest)
    else
      let r := removeIdx rest k
      (r.1, (k1, cp1) :: r.2)

/-- The engine together with the directory contents it owns:
`log` is `kvs.log`, `compactFile` is `kvs.compact.log` when that file
exists.  The reader and writer positions are not state: the reader is
repositioned before every use and the writer always sits at end of
log. -/
structure KvState where
  index : Index
  log : List Char
  compactFile : Option (List Char)
  stale : Nat
  deriving DecidableEq

/-- src/lib.rs `THRESHOLD`. -/
def THRESHOLD : Nat := 100

/-- The bytes `[cp.pos, cp.pos + cp.len)` of `log`: what
`seek(Start(cp.pos))` followed by `take(cp.len)` reads. -/
def sliceAt (log : List Char) (cp : CommandPos) : List Char :=
  (log.drop cp.pos).take cp.len

/-- The copy loop of `KvStore::compact`: for each index entry in order,
copy its slice to the compact writer (positioned at `acc.length`) and
update the entry to the new position and the number of characters
actually copied.  Returns the rewritten index and the accumulated
writer contents. -/
def copyEntries : Index → List Char → List Char → Index × List Char
  | [], _, acc => ([], acc)
  | (k, cp) :: rest, log, acc =>
    let s := sliceAt log cp
    let r := copyEntries rest log (acc ++ s)
    ((k, ⟨acc.length, s.length⟩) :: r.1, r.2)

/-- `KvStore::compact`: rewrite live records into `kvs.compact.log`
(opened **without truncation**, so pre-existing contents beyond the
bytes written survive), delete `kvs.log`, rename the compact file to
`kvs.log`, and reset `stale_size`. -/
def KvState.compact (st : KvState) : KvState :=
  let existing := st.compactFile.getD []
  let r := copyEntries st.index st.log []
  { index := r.1
    log := r.2 ++ existing.drop r.2.length
    compactFile := none
    stale := 0 }

/-- `KvStore::set` before the threshold check: append the record,
replace the index entry, and add any previous entry's length to
`stale_size`. -/
def KvState.setRaw (st : KvState) (k v : String) : KvState :=
  let bytes := serCmd (.Set k v)
  let pos := st.log.length
  let r := insertIdx st.index k ⟨pos, bytes.length⟩
  { st with
      index := r.2
      log := st.log ++ bytes
      stale := st.stale + (match r.1 with | some old => old.len | none => 0) }

/-- `KvStore::set` (src/lib.rs lines 79-97). -/
def KvState.set (st : KvState) (k v : String) : KvState :=
  let st1 := st.setRaw k v
  if THRESHOLD < st1.stale then st1.compact else st1

/-- `KvStore::remove` before the threshold check (the key is known to be
present): append a `Rm` record, drop the index entry, and add its length
to `stale_size`. -/
def KvState.removeRaw (st : KvState) (k : String) : KvState :=
  let bytes := serCmd (.Rm k)
  let r := removeIdx st.index k
  { st with
      index := r.2
      log := st.log ++ bytes
      stale := st.stale + (match r.1 with | some old => old.len | none => 0) }

/-- `KvStore::remove` (src/lib.rs lines 113-128): an absent key is a
`KeyNotFound` error and the engine (and the log file) is untouched. -/
def KvState.remove (st : KvState) (k : String) : KvState × Except KvError Unit :=
  match lookupIdx st.index k with
  | none => (st, .error .KeyNotFound)
  | some _ =>
    let st1 := st.removeRaw k
    (if THRESHOLD < st1.stale then st1.compact else st1, .ok ())

/-- `serde_json::from_reader` over a `take(len)`-limited reader: parse
exactly one record from the slice, tolerating only trailing whitespace;
anything else is a corruption error. -/
def parseValue (s : List Char) : Except KvError Commands :=
  match parseOne s with
  | none => .error .Corruption
  | some (c, rest) => if (skipWs rest).isEmpty then .ok c else .error .Corruption

/-- `KvStore::get` (src/lib.rs lines 99-111): index miss is `Ok(None)`;
on a hit, decode the slice; a decode failure is an error, and a decoded
record that is not a `Set` yields `Ok(None)`. -/
def KvState.get (st : KvState) (k : String) : Except KvError (Option String) :=
  match lookupIdx st.index k with
  | none => .ok none
  | some cp =>
    match parseValue (sliceAt st.log cp) with
    | .error e => .error e
    | .ok (.Set _ v) => .ok (some v)
    | .ok _ => .ok none

/-- One step of the replay loop in `KvStore::open` on an
already-decoded record whose serialized form spans `(serCmd c).length`
characters starting at `pos`: `Set` inserts the new range and counts a
displaced entry as stale, `Rm` drops the entry and counts it as stale,
anything else is ignored. -/
def replayStep (acc : Nat × Index × Nat) (c : Commands) : Nat × Index × Nat :=
  let pos := acc.1
  let idx := acc.2.1
  let stale := acc.2.2
  let n := (serCmd c).length
  match c with
  | .Set k _ =>
    let r := insertIdx idx k ⟨pos, n⟩
    (pos + n, r.2, stale + (match r.1 with | some old => old.len | none => 0))
  | .Rm k =>
    let r := removeIdx idx k
    (pos + n, r.2, stale + (match r.1 with | some old => old.len | none => 0))
  | .Get _ => (pos + n, idx, stale)

/-- The replay loop of `KvStore::open`: stream-parse records, tracking
the byte offset before and after each one.  `fuel` bounds the number of
iterations; it is always called with more fuel than the log can hold
records, so exhaustion (reported as `Io`) is unreachable. -/
def replayAux (fuel : Nat) (s : List Char) (pos : Nat) (idx : Index) (stale : Nat) :
    Except KvError (Index × Nat) :=
  match fuel with
  | 0 => .error .Io
  | fuel1 + 1 =>
    if (skipWs s).isEmpty then .ok (idx, stale)
    else
      match parseOne s with
      | none => .error .Corruption
      | some (c, rest) =>
        let newPos := pos + (s.length - rest.length)
        match c with
        | .Set k _ =>
          let r := insertIdx idx k ⟨pos, newPos - pos⟩
          replayAux fuel1 rest newPos r.2
            (stale + (match r.1 with | some old => old.len | none => 0))
        | .Rm k =>
          let r := removeIdx idx k
          replayAux fuel1 rest newPos r.2
            (stale + (match r.1 with | some old => old.len | none => 0))
        | .Get _ => replayAux fuel1 rest newPos idx stale

/-- Replay a whole log from offset 0 with an empty index. -/
def replay (s : List Char) : Except KvError (Index × Nat) :=
  replayAux (s.length + 1) s 0 [] 0

/-- Contents of the engine's directory: `kvs.log` and
`kvs.compact.log`, each possibly absent. -/
structure Dir where
  logFile : Option (List Char)
  compactFile : Option (List Char)
  deriving DecidableEq

/-- `KvStore::open` (src/lib.rs lines 35-77): create `kvs.log` when
absent, replay it, and return the engine.  Note that `kvs.compact.log`
is neither consulted nor deleted. -/
def openStore (d : Dir) : Except KvError KvState :=
  let content := d.logFile.getD []
  match replay content with
  | .error e => .error e
  | .ok (idx, stale) =>
    .ok { index := idx, log := content, compactFile := d.compactFile, stale := stale }

/-- The directory as left behind by an engine state. -/
def KvState.dirOf (st : KvState) : Dir :=
  ⟨some st.log, st.compactFile⟩

/-- An empty directory. -/
def freshDir : Dir := ⟨none, none⟩

/-- The engine obtained by opening a fresh directory. -/
def freshState : KvState :=
  { index := [], log := [], compactFile := none, stale := 0 }

/-! ### Operation sequences and the specification-level map -/

/-- A client operation. -/
inductive Op where
  | set (k v : String)
  | remove (k : String)
  | get (k : String)
  deriving DecidableEq

/-- Run one operation, keeping the engine state; a failed `remove`
leaves the state unchanged, and `get` does not modify observable
state. -/
def runOp (st : KvState) : Op → KvState
  | .set k v => st.set k v
  | .remove k => (st.remove k).1
  | .get _ => st

/-- Run a sequence of operations on a fresh engine. -/
def runOps (ops : List Op) : KvState :=
  ops.foldl runOp freshState

/-- One step of the specification-level map: `set` binds the key,
`remove` unbinds it, `get` changes nothing. -/
def specStep (acc : String → Option String) : Op → String → Option String
  | .set k1 v => fun q => if k1 = q then some v else acc q
  | .remove k1 => fun q => if k1 = q then none else acc q
  | .get _ => acc

/-- The specification's map after `ops`, starting from the map `m`: each
key is bound to the value of its most recent `set` not followed by a
`remove`. -/
def specFold (m : String → Option String) (ops : List Op) : String → Option String :=
  ops.foldl specStep m

/-- The specification's value of key `k` after `ops` on a fresh store. -/
def specGet (ops : List Op) (k : String) : Option String :=
  specFold (fun _ => none) ops k

/-! ### Stale-byte accounting -/

/-- Sum of the lengths of the live index entries. -/
def sumLens (idx : Index) : Nat :=
  (idx.map (fun e => e.2.len)).sum

/-- The set of log offsets covered by some live index entry. -/
def liveBytes (idx : Index) : Finset Nat :=
  idx.foldr (fun e acc => Finset.Ico e.2.pos (e.2.pos + e.2.len) ∪ acc) ∅

/-- Number of characters of the log not covered by any live index
entry's range. -/
def unreachableBytes (st : KvState) : Nat :=
  ((Finset.range st.log.length).filter (fun i => i ∉ liveBytes st.index)).card

/-! ### Derived notions used by the statements and invariants -/

/-- The log written by a sequence of records: the concatenation of their
serializations. -/
def logOf (cmds : List Commands) : List Char :=
  (cmds.map serCmd).flatten

/-- The entries are laid out consecutively starting at offset `p` (the
layout compaction produces). -/
def Consec : Index → Nat → Prop
  | [], _ => True
  | e :: rest, p => e.2.pos = p ∧ Consec rest (p + e.2.len)

/-- The index entry `(k, cp)` points at a complete serialized
`Set k v` record lying inside the log. -/
def entryOk (log : List Char) (k : String) (cp : CommandPos) (v : String) : Prop :=
  sliceAt log cp = serCmd (.Set k v) ∧
  cp.len = (serCmd (.Set k v)).length ∧
  cp.pos + cp.len ≤ log.length

/-- The engine invariant relating a state reached from a fresh directory
to the abstract map `m` of live keys. -/
structure Inv (st : KvState) (m : String → Option String) : Prop where
  present : ∀ k cp, lookupIdx st.index k = some cp → ∃ v, m k = some v ∧ entryOk st.log k cp v
  absent : ∀ k, lookupIdx st.index k = none → m k = none
  keysNodup : (st.index.map Prod.fst).Nodup
  bounded : ∀ e ∈ st.index, e.2.pos + e.2.len ≤ st.log.length
  staleBound : st.stale + sumLens st.index ≤ st.log.length
  compactNone : st.compactFile = none
  replayOk : ∃ cmds, st.log = logOf cmds ∧
    cmds.foldl replayStep (0, [], 0) = (st.log.length, st.index, st.stale)

/-! ### Concrete states for the counterexamples and witnesses -/

/-- The log after `set("a","1"); set("b","2")` on a fresh directory. -/
def c3Log : List Char := serCmd (.Set "a" "1") ++ serCmd (.Set "b" "2")

/-- A truncated `kvs.compact.log` left by a crash mid-compaction. -/
def c3Partial : List Char := [lbrace, '"', 'S']

/-- The crash-mid-compaction directory of the spec's scenario 6. -/
def c3Dir : Dir := ⟨some c3Log, some c3Partial⟩

/-- The state `open` actually produces on `c3Dir`. -/
def c3Opened : KvState :=
  { index := [("a", ⟨0, 31⟩), ("b", ⟨31, 31⟩)]
    log := c3Log
    compactFile := some c3Partial
    stale := 0 }

/-- A state whose index entry points at a `Rm` record (what the claim
about non-`Set` records read via the index is about). -/
def c4State : KvState :=
  { index := [("k", ⟨0, 18⟩)]
    log := serCmd (.Rm "k")
    compactFile := none
    stale := 0 }

/-- A pre-existing 40-character `kvs.compact.log`. -/
def c10File : List Char := List.replicate 40 'x'

/-- A one-key engine state in a directory that still holds a 40-character
orphan `kvs.compact.log`. -/
def c10State : KvState :=
  { index := [("a", ⟨0, 31⟩)]
    log := serCmd (.Set "a" "1")
    compactFile := some c10File
    stale := 0 }

/-! ## Codec round-trip -/

theorem hexVal_hexLowerDigit (n : Nat) (h : n < 16) : hexVal (hexLowerDigit n) = some n := by
  interval_cases n <;> decide

theorem escChar_length_pos (c : Char) : 0 < (escChar c).length := by
  unfold escChar
  repeat' split
  all_goals simp

theorem psb_quote (fuel : Nat) (rest : List Char) :
    parseStrBody (fuel + 1) ('"' :: rest) = some ([], rest) := by
  simp only [parseStrBody]
  rfl

theorem psb_plain (fuel : Nat) (c : Char) (rest : List Char)
    (h1 : ¬ c = '"') (h2 : ¬ c = '\\') (h3 : ¬ c.toNat < 32) :
    parseStrBody (fuel + 1) (c :: rest) = (parseStrBody fuel rest).map (fun p => (c :: p.1, p.2)) := by
  simp only [parseStrBody, h1, h2, h3, if_false, if_neg]

theorem psb_esc (fuel : Nat) (s : List Char) (c1 : Char) (rest1 : List Char)
    (h : parseEsc s = some (c1, rest1)) :
    parseStrBody (fuel + 1) ('\\' :: s) = (parseStrBody fuel rest1).map (fun p => (c1 :: p.1, p.2)) := by
  simp only [parseStrBody, show ¬ ('\\' : Char) = '"' from by decide, if_neg, if_pos, h, if_false]

theorem parseEsc_named (e c1 : Char) (rest : List Char) (h1 : ¬ e = 'u')
    (h2 : escAnti e = some c1) : parseEsc (e :: rest) = some (c1, rest) := by
  simp [parseEsc, h1, h2]

theorem parseEsc_u00 (n : Nat) (h : n < 32) (rest : List Char) :
    parseEsc ('u' :: '0' :: '0' :: hexLowerDigit (n / 16) :: hexLowerDigit (n % 16) :: rest) =
      some (Char.ofNat n, rest) := by
  have hd : n / 16 < 16 := by omega
  have hm : n % 16 < 16 := by omega
  have he : n / 16 * 16 + n % 16 = n := by
    rw [Nat.mul_comm]
    exact Nat.div_add_mod n 16
  simp only [parseEsc, if_pos rfl, if_true, eq_self_iff_true, parseHexEsc,
    hexVal_hexLowerDigit _ hd, hexVal_hexLowerDigit _ hm,
    show hexVal '0' = some 0 from by decide, Nat.zero_mul, Nat.zero_add, he]
  rw [if_pos (Or.inl (show n < 55296 by omega))]

theorem psb_escChar (fuel : Nat) (c : Char) (tail : List Char) :
    parseStrBody (fuel + 1) (escChar c ++ tail) =
      (parseStrBody fuel tail).map (fun p => (c :: p.1, p.2)) := by
  by_cases h1 : c = '"'
  · subst h1
    rw [show escChar '"' = ['\\', '"'] from by decide, List.cons_append, List.cons_append,
      List.nil_append, psb_esc fuel _ _ tail (parseEsc_named '"' '"' tail (by decide) (by decide))]
  by_cases h2 : c = '\\'
  · subst h2
    rw [show escChar '\\' = ['\\', '\\'] from by decide, List.cons_append, List.cons_append,
      List.nil_append, psb_esc fuel _ _ tail (parseEsc_named '\\' '\\' tail (by decide) (by decide))]
  by_cases hb : c = Char.ofNat 8
  · subst hb
    rw [show escChar (Char.ofNat 8) = ['\\', 'b'] from by decide, List.cons_append,
      List.cons_append, List.nil_append,
      psb_esc fuel _ _ tail (parseEsc_named 'b' (Char.ofNat 8) tail (by decide) (by decide))]
  by_cases ht : c = Char.ofNat 9
  · subst ht
    rw [show escChar (Char.ofNat 9) = ['\\', 't'] from by decide, List.cons_append,
      List.cons_append, List.nil_append,
      psb_esc fuel _ _ tail (parseEsc_named 't' (Char.ofNat 9) tail (by decide) (by decide))]
  by_cases hn : c = Char.ofNat 10
  · subst hn
    rw [show escChar (Char.ofNat 10) = ['\\', 'n'] from by decide, List.cons_append,
      List.cons_append, List.nil_append,
      psb_esc fuel _ _ tail (parseEsc_named 'n' (Char.ofNat 10) tail (by decide) (by decide))]
  by_cases hfc : c = Char.ofNat 12
  · subst hfc
    rw [show escChar (Char.ofNat 12) = ['\\', 'f'] from by decide, List.cons_append,
      List.cons_append, List.nil_append,
      psb_esc fuel _ _ tail (parseEsc_named 'f' (Char.ofNat 12) tail (by decide) (by decide))]
  by_cases hr : c = Char.ofNat 13
  · subst hr
    rw [show escChar (Char.ofNat 13) = ['\\', 'r'] from by decide, List.cons_append,
      List.cons_append, List.nil_append,
      psb_esc fuel _ _ tail (parseEsc_named 'r' (Char.ofNat 13) tail (by decide) (by decide))]
  have h3 : ¬ c.toNat = 8 := fun h => hb (by rw [← Char.ofNat_toNat c, h])
  have h4 : ¬ c.toNat = 9 := fun h => ht (by rw [← Char.ofNat_toNat c, h])
  have h5 : ¬ c.toNat = 10 := fun h => hn (by rw [← Char.ofNat_toNat c, h])
  have h6 : ¬ c.toNat = 12 := fun h => hfc (by rw [← Char.ofNat_toNat c, h])
  have h7 : ¬ c.toNat = 13 := fun h => hr (by rw [← Char.ofNat_toNat c, h])
  by_cases h8 : c.toNat < 32
  · have hesc : escChar c =
        ['\\', 'u', '0', '0', hexLowerDigit (c.toNat / 16), hexLowerDigit (c.toNat % 16)] := by
      simp [escChar, h1, h2, h3, h4, h5, h6, h7, h8]
    rw [hesc]
    simp only [List.cons_append, List.nil_append]
    rw [psb_esc fuel _ _ tail (parseEsc_u00 c.toNat h8 tail), Char.ofNat_toNat]
  · have hesc : escChar c = [c] := by simp [escChar, h1, h2, h3, h4, h5, h6, h7, h8]
    rw [hesc, List.cons_append, List.nil_append, psb_plain fuel c tail h1 h2 h8]

theorem parseStrBody_rt (cs : List Char) :
    ∀ fuel rest, cs.length < fuel →
      parseStrBody fuel ((cs.map escChar).flatten ++ '"' :: rest) = some (cs, rest) := by
  induction cs with
  | nil =>
    intro fuel rest h
    cases fuel with
    | zero => omega
    | succ fuel => simpa using psb_quote fuel rest
  | cons c cs ih =>
    intro fuel rest h
    cases fuel with
    | zero => omega
    | succ fuel =>
      have hf : cs.length < fuel := by
        simp only [List.length_cons] at h
        omega
      simp only [List.map_cons, List.flatten_cons, List.append_assoc]
      rw [psb_escChar fuel c _, ih fuel rest hf]
      rfl

theorem length_le_escList (cs : List Char) : cs.length ≤ ((cs.map escChar).flatten).length := by
  induction cs with
  | nil => simp
  | cons c cs ih =>
    simp only [List.map_cons, List.flatten_cons, List.length_append, List.length_cons]
    have := escChar_length_pos c
    omega

theorem parseJString_enc (t : String) (rest : List Char) :
    parseJString (encStr t ++ rest) = some (t, rest) := by
  have hs : encStr t ++ rest = '"' :: ((t.data.map escChar).flatten ++ '"' :: rest) := by
    simp [encStr]
  rw [hs]
  simp only [parseJString, if_pos rfl, if_true, eq_self_iff_true]
  have hlen : t.data.length < ((t.data.map escChar).flatten ++ '"' :: rest).length := by
    have := length_le_escList t.data
    simp only [List.length_append, List.length_cons]
    omega
  rw [parseStrBody_rt t.data _ rest hlen]
  rfl

theorem skipWs_cons (c : Char) (s : List Char) (h : isWsChar c = false) :
    skipWs (c :: s) = c :: s := by
  simp [skipWs, List.dropWhile_cons, h]

theorem skipWs_encStr (t : String) (r : List Char) : skipWs (encStr t ++ r) = encStr t ++ r := by
  have hs : encStr t ++ r = '"' :: ((t.data.map escChar).flatten ++ '"' :: r) := by simp [encStr]
  rw [hs, skipWs_cons _ _ (by decide)]

theorem expectChars_single (c : Char) (s : List Char) : expectChars [c] (c :: s) = some s := by
  simp [expectChars]

theorem parseOne_ser (c : Commands) (rest : List Char) :
    parseOne (serCmd c ++ rest) = some (c, rest) := by
  cases c with
  | Set k v =>
    simp only [serCmd, List.cons_append, List.append_assoc, List.nil_append]
    simp [parseOne, parseInner2, skipWs_cons _ _ (show isWsChar lbrace = false from by decide),
      skipWs_cons _ _ (show isWsChar ':' = false from by decide),
      skipWs_cons _ _ (show isWsChar ',' = false from by decide),
      skipWs_cons _ _ (show isWsChar rbrace = false from by decide),
      skipWs_encStr, expectChars_single, parseJString_enc]
  | Get k =>
    simp only [serCmd, List.cons_append, List.append_assoc, List.nil_append]
    simp [parseOne, parseInner1, skipWs_cons _ _ (show isWsChar lbrace = false from by decide),
      skipWs_cons _ _ (show isWsChar ':' = false from by decide),
      skipWs_cons _ _ (show isWsChar rbrace = false from by decide),
      skipWs_encStr, expectChars_single, parseJString_enc,
      show ¬ ("Get" : String) = "Set" from by decide]
  | Rm k =>
    simp only [serCmd, List.cons_append, List.append_assoc, List.nil_append]
    simp [parseOne, parseInner1, skipWs_cons _ _ (show isWsChar lbrace = false from by decide),
      skipWs_cons _ _ (show isWsChar ':' = false from by decide),
      skipWs_cons _ _ (show isWsChar rbrace = false from by decide),
      skipWs_encStr, expectChars_single, parseJString_enc,
      show ¬ ("Rm" : String) = "Set" from by decide,
      show ¬ ("Rm" : String) = "Get" from by decide]

theorem parseOne_ser_nil (c : Commands) : parseOne (serCmd c) = some (c, []) := by
  have := parseOne_ser c []
  rwa [List.append_nil] at this

/-! ## Slice and index lemmas -/

theorem sliceAt_append_self (l r : List Char) : sliceAt (l ++ r) ⟨l.length, r.length⟩ = r := by
  simp [sliceAt, List.drop_left]

theorem sliceAt_append_left (l t : List Char) (cp : CommandPos) (h : cp.pos + cp.len ≤ l.length) :
    sliceAt (l ++ t) cp = sliceAt l cp := by
  simp only [sliceAt]
  rw [List.drop_append_eq_append_drop, List.take_append_of_le_length (by simp; omega)]

theorem sliceAt_layout (a s t : List Char) : sliceAt (a ++ (s ++ t)) ⟨a.length, s.length⟩ = s := by
  simp [sliceAt, List.drop_left, List.take_left]

theorem entryOk_append (log t : List Char) (k : String) (cp : CommandPos) (v : String)
    (h : entryOk log k cp v) : entryOk (log ++ t) k cp v := by
  obtain ⟨h1, h2, h3⟩ := h
  refine ⟨?_, h2, by simp; omega⟩
  rw [sliceAt_append_left _ _ _ h3, h1]


theorem lookup_insertIdx_self (idx : Index) (k : String) (cp : CommandPos) :
    lookupIdx (insertIdx idx k cp).2 k = some cp := by
  induction idx with
  | nil => simp [insertIdx, lookupIdx]
  | cons e rest ih =>
    obtain ⟨k1, cp1⟩ := e
    by_cases h : k1 = k
    · simp [insertIdx, h, lookupIdx]
    · simp [insertIdx, h, lookupIdx, ih]

theorem lookup_insertIdx_ne (idx : Index) (k q : String) (cp : CommandPos) (h : ¬ q = k) :
    lookupIdx (insertIdx idx k cp).2 q = lookupIdx idx q := by
  have hk : ¬ k = q := fun hh => h hh.symm
  induction idx with
  | nil => simp [insertIdx, lookupIdx, hk]
  | cons e rest ih =>
    obtain ⟨k1, cp1⟩ := e
    by_cases he : k1 = k
    · simp only [insertIdx, if_pos he]
      rw [lookupIdx, if_neg hk, lookupIdx, if_neg (by rw [he]; exact hk)]
    · simp only [insertIdx, if_neg he]
      rw [lookupIdx, lookupIdx]
      by_cases hq : k1 = q
      · rw [if_pos hq, if_pos hq]
      · rw [if_neg hq, if_neg hq, ih]

theorem insertIdx_fst_eq_lookup (idx : Index) (k : String) (cp : CommandPos) :
    (insertIdx idx k cp).1 = lookupIdx idx k := by
  induction idx with
  | nil => simp [insertIdx, lookupIdx]
  | cons e rest ih =>
    obtain ⟨k1, cp1⟩ := e
    by_cases h : k1 = k
    · simp [insertIdx, h, lookupIdx]
    · simp [insertIdx, h, lookupIdx, ih]

theorem removeIdx_fst_eq_lookup (idx : Index) (k : String) :
    (removeIdx idx k).1 = lookupIdx idx k := by
  induction idx with
  | nil => simp [removeIdx, lookupIdx]
  | cons e rest ih =>
    obtain ⟨k1, cp1⟩ := e
    by_cases h : k1 = k
    · simp [removeIdx, h, lookupIdx]
    · simp [removeIdx, h, lookupIdx, ih]

theorem lookup_removeIdx_ne (idx : Index) (k q : String) (h : ¬ q = k) :
    lookupIdx (removeIdx idx k).2 q = lookupIdx idx q := by
  induction idx with
  | nil => simp [removeIdx]
  | cons e rest ih =>
    obtain ⟨k1, cp1⟩ := e
    by_cases he : k1 = k
    · simp only [removeIdx, if_pos he]
      rw [lookupIdx, if_neg (by rw [he]; exact fun hh => h hh.symm)]
    · simp only [removeIdx, if_neg he]
      rw [lookupIdx, lookupIdx]
      by_cases hq : k1 = q
      · rw [if_pos hq, if_pos hq]
      · rw [if_neg hq, if_neg hq, ih]

theorem lookup_removeIdx_self (idx : Index) (k : String)
    (hnd : (idx.map Prod.fst).Nodup) : lookupIdx (removeIdx idx k).2 k = none := by
  induction idx with
  | nil => simp [removeIdx, lookupIdx]
  | cons e rest ih =>
    obtain ⟨k1, cp1⟩ := e
    simp only [List.map_cons, List.nodup_cons] at hnd
    by_cases he : k1 = k
    · simp only [removeIdx, if_pos he]
      subst he
      clear ih
      induction rest with
      | nil => simp [lookupIdx]
      | cons e2 rest2 ih2 =>
        obtain ⟨k2, cp2⟩ := e2
        simp only [List.mem_cons, List.map_cons, List.nodup_cons, not_or] at hnd
        rw [lookupIdx, if_neg (fun hh => hnd.1.1 hh.symm)]
        exact ih2 ⟨fun hm => hnd.1.2 hm, hnd.2.2⟩
    · simp only [removeIdx, if_neg he]
      rw [lookupIdx, if_neg he]
      exact ih hnd.2


theorem mem_insertIdx (idx : Index) (k : String) (cp : CommandPos)
    (e : String × CommandPos) (h : e ∈ (insertIdx idx k cp).2) : e ∈ idx ∨ e = (k, cp) := by
  induction idx with
  | nil =>
    simp [insertIdx] at h
    exact Or.inr h
  | cons e1 rest ih =>
    obtain ⟨k1, cp1⟩ := e1
    by_cases he : k1 = k
    · simp only [insertIdx, if_pos he] at h
      rcases List.mem_cons.mp h with h | h
      · exact Or.inr h
      · exact Or.inl (List.mem_cons_of_mem _ h)
    · simp only [insertIdx, if_neg he] at h
      rcases List.mem_cons.mp h with h | h
      · exact Or.inl (h ▸ List.mem_cons_self _ _)
      · rcases ih h with h | h
        · exact Or.inl (List.mem_cons_of_mem _ h)
        · exact Or.inr h

theorem mem_removeIdx (idx : Index) (k : String)
    (e : String × CommandPos) (h : e ∈ (removeIdx idx k).2) : e ∈ idx := by
  induction idx with
  | nil =>
    simp only [removeIdx] at h
    exact absurd h (List.not_mem_nil e)
  | cons e1 rest ih =>
    obtain ⟨k1, cp1⟩ := e1
    by_cases he : k1 = k
    · simp only [removeIdx, if_pos he] at h
      exact List.mem_cons_of_mem _ h
    · simp only [removeIdx, if_neg he] at h
      rcases List.mem_cons.mp h with h | h
      · exact h ▸ List.mem_cons_self _ _
      · exact List.mem_cons_of_mem _ (ih h)

theorem map_fst_insertIdx (idx : Index) (k : String) (cp : CommandPos) :
    (insertIdx idx k cp).2.map Prod.fst =
      if lookupIdx idx k = none then idx.map Prod.fst ++ [k] else idx.map Prod.fst := by
  induction idx with
  | nil => simp [insertIdx, lookupIdx]
  | cons e rest ih =>
    obtain ⟨k1, cp1⟩ := e
    by_cases he : k1 = k
    · simp [insertIdx, he, lookupIdx]
    · simp only [insertIdx, if_neg he, lookupIdx, List.map_cons]
      rw [ih]
      by_cases hl : lookupIdx rest k = none
      · simp [hl, he]
      · simp [hl, he]

theorem map_fst_removeIdx_sublist (idx : Index) (k : String) :
    List.Sublist ((removeIdx idx k).2.map Prod.fst) (idx.map Prod.fst) := by
  induction idx with
  | nil => simp [removeIdx]
  | cons e rest ih =>
    obtain ⟨k1, cp1⟩ := e
    by_cases he : k1 = k
    · simp only [removeIdx, if_pos he, List.map_cons]
      exact List.Sublist.cons _ (List.Sublist.refl _)
    · simp only [removeIdx, if_neg he, List.map_cons]
      exact ih.cons₂ k1


theorem nodup_insertIdx (idx : Index) (k : String) (cp : CommandPos)
    (h : (idx.map Prod.fst).Nodup) : ((insertIdx idx k cp).2.map Prod.fst).Nodup := by
  rw [map_fst_insertIdx]
  by_cases hl : lookupIdx idx k = none
  · rw [if_pos hl]
    rw [List.nodup_append]
    refine ⟨h, List.nodup_singleton k, ?_⟩
    intro a ha hb
    simp only [List.mem_singleton] at hb
    subst hb
    clear h
    induction idx with
    | nil => simp at ha
    | cons e rest ih =>
      obtain ⟨k1, cp1⟩ := e
      simp only [List.map_cons, List.mem_cons] at ha
      rw [lookupIdx] at hl
      rcases ha with ha | ha
      · rw [if_pos ha.symm] at hl
        exact Option.noConfusion hl
      · by_cases he : k1 = a
        · rw [if_pos he] at hl
          exact Option.noConfusion hl
        · rw [if_neg he] at hl
          exact ih ha hl
  · rw [if_neg hl]
    exact h

theorem nodup_removeIdx (idx : Index) (k : String)
    (h : (idx.map Prod.fst).Nodup) : ((removeIdx idx k).2.map Prod.fst).Nodup :=
  (map_fst_removeIdx_sublist idx k).nodup h

theorem sumLens_insertIdx (idx : Index) (k : String) (cp : CommandPos) :
    sumLens (insertIdx idx k cp).2 +
      (match (insertIdx idx k cp).1 with | some old => old.len | none => 0) =
    sumLens idx + cp.len := by
  induction idx with
  | nil => simp [insertIdx, sumLens]
  | cons e rest ih =>
    obtain ⟨k1, cp1⟩ := e
    by_cases he : k1 = k
    · simp [insertIdx, he, sumLens]
      omega
    · simp only [insertIdx, if_neg he]
      simp only [sumLens, List.map_cons, List.sum_cons] at ih ⊢
      omega

theorem sumLens_removeIdx (idx : Index) (k : String) :
    sumLens (removeIdx idx k).2 +
      (match (removeIdx idx k).1 with | some old => old.len | none => 0) =
    sumLens idx := by
  induction idx with
  | nil => simp [removeIdx, sumLens]
  | cons e rest ih =>
    obtain ⟨k1, cp1⟩ := e
    by_cases he : k1 = k
    · simp [removeIdx, he, sumLens]
      omega
    · simp only [removeIdx, if_neg he]
      simp only [sumLens, List.map_cons, List.sum_cons] at ih ⊢
      omega

theorem lookup_eq_none_iff (idx : Index) (k : String) :
    lookupIdx idx k = none ↔ k ∉ idx.map Prod.fst := by
  induction idx with
  | nil => simp [lookupIdx]
  | cons e rest ih =>
    obtain ⟨k1, cp1⟩ := e
    rw [lookupIdx]
    by_cases he : k1 = k
    · simp [he]
    · rw [if_neg he, ih]
      simp only [List.map_cons, List.mem_cons, not_or]
      exact ⟨fun hh => ⟨fun h12 => he h12.symm, hh⟩, fun hh => hh.2⟩

theorem lookup_of_mem (idx : Index) (k : String) (cp : CommandPos)
    (hnd : (idx.map Prod.fst).Nodup) (h : (k, cp) ∈ idx) : lookupIdx idx k = some cp := by
  induction idx with
  | nil => simp at h
  | cons e rest ih =>
    obtain ⟨k1, cp1⟩ := e
    simp only [List.map_cons, List.nodup_cons] at hnd
    rcases List.mem_cons.mp h with h | h
    · cases h
      rw [lookupIdx, if_pos rfl]
    · rw [lookupIdx]
      by_cases he : k1 = k
      · exfalso
        apply hnd.1
        rw [he]
        exact List.mem_map_of_mem Prod.fst h
      · rw [if_neg he]
        exact ih hnd.2 h

theorem insertIdx_absent (idx : Index) (k : String) (cp : CommandPos)
    (h : lookupIdx idx k = none) : insertIdx idx k cp = (none, idx ++ [(k, cp)]) := by
  induction idx with
  | nil => simp [insertIdx]
  | cons e rest ih =>
    obtain ⟨k1, cp1⟩ := e
    rw [lookupIdx] at h
    by_cases he : k1 = k
    · rw [if_pos he] at h
      exact Option.noConfusion h
    · rw [if_neg he] at h
      simp [insertIdx, he, ih h]

theorem lookup_append_single_none (idx : Index) (k q : String) (cp : CommandPos)
    (h1 : lookupIdx idx q = none) (h2 : ¬ k = q) :
    lookupIdx (idx ++ [(k, cp)]) q = none := by
  induction idx with
  | nil => simp [lookupIdx, h2]
  | cons e rest ih =>
    obtain ⟨k1, cp1⟩ := e
    rw [lookupIdx] at h1
    by_cases he : k1 = q
    · rw [if_pos he] at h1
      exact Option.noConfusion h1
    · rw [if_neg he] at h1
      simp only [List.cons_append]
      rw [lookupIdx, if_neg he]
      exact ih h1


/-! ## Replay of a well-formed log -/

theorem serCmd_head (c : Commands) : ∃ t, serCmd c = lbrace :: t := by
  cases c <;> exact ⟨_, rfl⟩

theorem serCmd_length_pos (c : Commands) : 0 < (serCmd c).length := by
  obtain ⟨t, ht⟩ := serCmd_head c
  simp [ht]

theorem length_logOf_ge (cmds : List Commands) : cmds.length ≤ (logOf cmds).length := by
  induction cmds with
  | nil => simp [logOf]
  | cons c cs ih =>
    simp only [logOf, List.map_cons, List.flatten_cons, List.length_append,
      List.length_cons] at ih ⊢
    have := serCmd_length_pos c
    omega

theorem replayAux_logOf (cmds : List Commands) :
    ∀ fuel pos idx stale, cmds.length < fuel →
      replayAux fuel (logOf cmds) pos idx stale =
        .ok (cmds.foldl replayStep (pos, idx, stale)).2 := by
  induction cmds with
  | nil =>
    intro fuel pos idx stale h
    cases fuel with
    | zero => omega
    | succ fuel => simp [replayAux, logOf, skipWs]
  | cons c cs ih =>
    intro fuel pos idx stale h
    cases fuel with
    | zero => omega
    | succ fuel =>
      have hf : cs.length < fuel := by
        simp only [List.length_cons] at h
        omega
      obtain ⟨t, ht⟩ := serCmd_head c
      have hlog : logOf (c :: cs) = serCmd c ++ logOf cs := by simp [logOf]
      have hskip : skipWs (serCmd c ++ logOf cs) = serCmd c ++ logOf cs := by
        rw [ht, List.cons_append, skipWs_cons _ _ (by decide)]
      have hne : (skipWs (serCmd c ++ logOf cs)).isEmpty = false := by
        rw [hskip, ht, List.cons_append]
        rfl
      rw [hlog]
      cases c with
      | Set k v =>
        simp only [replayAux, hne, Bool.false_eq_true, if_false, parseOne_ser,
          List.length_append, Nat.add_sub_cancel, Nat.add_sub_cancel_left]
        rw [ih fuel _ _ _ hf]
        simp only [List.foldl_cons, replayStep]
      | Get k =>
        simp only [replayAux, hne, Bool.false_eq_true, if_false, parseOne_ser,
          List.length_append, Nat.add_sub_cancel, Nat.add_sub_cancel_left]
        rw [ih fuel _ _ _ hf]
        simp only [List.foldl_cons, replayStep]
      | Rm k =>
        simp only [replayAux, hne, Bool.false_eq_true, if_false, parseOne_ser,
          List.length_append, Nat.add_sub_cancel, Nat.add_sub_cancel_left]
        rw [ih fuel _ _ _ hf]
        simp only [List.foldl_cons, replayStep]

theorem replay_logOf (cmds : List Commands) :
    replay (logOf cmds) = .ok (cmds.foldl replayStep (0, [], 0)).2 := by
  have h : cmds.length < (logOf cmds).length + 1 := by
    have := length_logOf_ge cmds
    omega
  exact replayAux_logOf cmds _ 0 [] 0 h


/-! ## Compaction copy loop -/

theorem copyEntries_prefix (entries : Index) (log : List Char) :
    ∀ acc, ∃ t, (copyEntries entries log acc).2 = acc ++ t := by
  induction entries with
  | nil =>
    intro acc
    exact ⟨[], by simp [copyEntries]⟩
  | cons e rest ih =>
    intro acc
    obtain ⟨k, cp⟩ := e
    obtain ⟨t, htt⟩ := ih (acc ++ sliceAt log cp)
    refine ⟨sliceAt log cp ++ t, ?_⟩
    simp only [copyEntries]
    rw [htt, List.append_assoc]

theorem copyEntries_fst (entries : Index) (log : List Char) :
    ∀ acc, (copyEntries entries log acc).1.map Prod.fst = entries.map Prod.fst := by
  induction entries with
  | nil => intro acc; simp [copyEntries]
  | cons e rest ih =>
    intro acc
    obtain ⟨k, cp⟩ := e
    simp only [copyEntries, List.map_cons]
    rw [ih]

theorem copyEntries_forall2 (entries : Index) (log : List Char) :
    ∀ acc, List.Forall₂
      (fun e o => o.1 = e.1 ∧ o.2.len = (sliceAt log e.2).length ∧
        sliceAt (copyEntries entries log acc).2 o.2 = sliceAt log e.2)
      entries (copyEntries entries log acc).1 := by
  induction entries with
  | nil => intro acc; simp [copyEntries]
  | cons e rest ih =>
    intro acc
    obtain ⟨k, cp⟩ := e
    simp only [copyEntries]
    refine List.Forall₂.cons ⟨rfl, rfl, ?_⟩ (ih (acc ++ sliceAt log cp))
    obtain ⟨t, htt⟩ := copyEntries_prefix rest log (acc ++ sliceAt log cp)
    show sliceAt (copyEntries rest log (acc ++ sliceAt log cp)).2
      ⟨acc.length, (sliceAt log cp).length⟩ = sliceAt log cp
    rw [htt, List.append_assoc]
    exact sliceAt_layout acc (sliceAt log cp) t

theorem copyEntries_consec (entries : Index) (log : List Char) :
    ∀ acc, Consec (copyEntries entries log acc).1 acc.length := by
  induction entries with
  | nil => intro acc; simp [copyEntries, Consec]
  | cons e rest ih =>
    intro acc
    obtain ⟨k, cp⟩ := e
    simp only [copyEntries, Consec]
    refine ⟨by trivial, ?_⟩
    have := ih (acc ++ sliceAt log cp)
    rwa [List.length_append] at this

theorem copyEntries_length (entries : Index) (log : List Char) :
    ∀ acc, (copyEntries entries log acc).2.length =
      acc.length + sumLens (copyEntries entries log acc).1 := by
  induction entries with
  | nil => intro acc; simp [copyEntries, sumLens]
  | cons e rest ih =>
    intro acc
    obtain ⟨k, cp⟩ := e
    simp only [copyEntries, sumLens, List.map_cons, List.sum_cons]
    have := ih (acc ++ sliceAt log cp)
    simp only [sumLens] at this
    rw [this, List.length_append]
    omega

theorem consec_bounds (idx : Index) :
    ∀ p, Consec idx p → ∀ e ∈ idx, p ≤ e.2.pos ∧ e.2.pos + e.2.len ≤ p + sumLens idx := by
  induction idx with
  | nil => intro p _ e he; simp at he
  | cons e1 rest ih =>
    intro p hc e he
    obtain ⟨hpos, hrest⟩ := hc
    simp only [sumLens, List.map_cons, List.sum_cons]
    rcases List.mem_cons.mp he with he | he
    · subst he
      omega
    · have h2 := ih _ hrest e he
      simp only [sumLens] at h2
      omega

theorem consec_live (idx : Index) :
    ∀ p i, Consec idx p → p ≤ i → i < p + sumLens idx → i ∈ liveBytes idx := by
  induction idx with
  | nil =>
    intro p i _ h1 h2
    simp only [sumLens, List.map_nil, List.sum_nil, Nat.add_zero] at h2
    omega
  | cons e rest ih =>
    intro p i hc h1 h2
    obtain ⟨hpos, hrest⟩ := hc
    simp only [liveBytes, List.foldr_cons, Finset.mem_union]
    simp only [sumLens, List.map_cons, List.sum_cons] at h2
    by_cases hi : i < e.2.pos + e.2.len
    · left
      simp only [Finset.mem_Ico]
      omega
    · right
      refine ih (p + e.2.len) i hrest (by omega) ?_
      simp only [sumLens]
      omega

theorem copyEntries_idem (entries : Index) (log : List Char) :
    ∀ acc, copyEntries (copyEntries entries log acc).1 (copyEntries entries log acc).2 acc =
      copyEntries entries log acc := by
  induction entries with
  | nil => intro acc; simp [copyEntries]
  | cons e rest ih =>
    intro acc
    obtain ⟨k, cp⟩ := e
    simp only [copyEntries]
    obtain ⟨t, htt⟩ := copyEntries_prefix rest log (acc ++ sliceAt log cp)
    have hs : sliceAt (copyEntries rest log (acc ++ sliceAt log cp)).2
        ⟨acc.length, (sliceAt log cp).length⟩ = sliceAt log cp := by
      rw [htt, List.append_assoc]
      exact sliceAt_layout acc (sliceAt log cp) t
    rw [hs, ih (acc ++ sliceAt log cp)]


/-! ## Engine invariant and its preservation -/

theorem mem_of_lookup (idx : Index) (q : String) (cp : CommandPos)
    (h : lookupIdx idx q = some cp) : (q, cp) ∈ idx := by
  induction idx with
  | nil => simp [lookupIdx] at h
  | cons e rest ih =>
    obtain ⟨k1, cp1⟩ := e
    rw [lookupIdx] at h
    by_cases he : k1 = q
    · rw [if_pos he] at h
      injection h with h
      rw [← he, ← h]
      exact List.mem_cons_self _ _
    · rw [if_neg he] at h
      exact List.mem_cons_of_mem _ (ih h)

theorem logOf_append (l1 l2 : List Commands) : logOf (l1 ++ l2) = logOf l1 ++ logOf l2 := by
  simp [logOf]

theorem logOf_single (c : Commands) : logOf [c] = serCmd c := by
  simp [logOf]

theorem get_of_inv (st : KvState) (m : String → Option String) (hinv : Inv st m) (k : String) :
    st.get k = .ok (m k) := by
  cases hl : lookupIdx st.index k with
  | none =>
    rw [hinv.absent k hl]
    simp only [KvState.get, hl]
  | some cp =>
    obtain ⟨v, hm, hs, hlen, hb⟩ := hinv.present k cp hl
    rw [hm]
    simp only [KvState.get, hl, hs, parseValue, parseOne_ser_nil]
    rfl

theorem inv_fresh : Inv freshState (fun _ => none) := by
  refine ⟨?_, ?_, ?_, ?_, ?_, rfl, ⟨[], rfl, rfl⟩⟩
  · intro k cp h
    simp [freshState, lookupIdx] at h
  · intro k _
    rfl
  · simp [freshState]
  · intro e he
    simp [freshState] at he
  · simp [freshState, sumLens]


theorem setRaw_eq (st : KvState) (k v : String) :
    st.setRaw k v =
      { st with
          index := (insertIdx st.index k ⟨st.log.length, (serCmd (.Set k v)).length⟩).2
          log := st.log ++ serCmd (.Set k v)
          stale := st.stale +
            (match (insertIdx st.index k ⟨st.log.length, (serCmd (.Set k v)).length⟩).1 with
              | some old => old.len | none => 0) } := rfl

theorem inv_setRaw (st : KvState) (m : String → Option String) (k v : String) (hinv : Inv st m) :
    Inv (st.setRaw k v) (fun q => if k = q then some v else m q) := by
  rw [setRaw_eq]
  set cpNew : CommandPos := ⟨st.log.length, (serCmd (.Set k v)).length⟩ with hcp
  constructor
  · -- present
    intro q cp hq
    simp only at hq
    by_cases hqk : q = k
    · subst hqk
      rw [lookup_insertIdx_self] at hq
      injection hq with hq
      subst hq
      refine ⟨v, by rw [if_pos rfl], ?_, rfl, by simp⟩
      exact sliceAt_append_self st.log (serCmd (.Set q v))
    · rw [lookup_insertIdx_ne _ _ _ _ hqk] at hq
      obtain ⟨v1, hm1, hok⟩ := hinv.present q cp hq
      exact ⟨v1, by rw [if_neg (fun hh => hqk hh.symm)]; exact hm1,
        entryOk_append _ _ _ _ _ hok⟩
  · -- absent
    intro q hq
    simp only at hq
    by_cases hqk : q = k
    · subst hqk
      rw [lookup_insertIdx_self] at hq
      exact Option.noConfusion hq
    · rw [lookup_insertIdx_ne _ _ _ _ hqk] at hq
      rw [if_neg (fun hh => hqk hh.symm)]
      exact hinv.absent q hq
  · -- keysNodup
    exact nodup_insertIdx _ _ _ hinv.keysNodup
  · -- bounded
    intro e he
    simp only at he
    simp only [List.length_append]
    rcases mem_insertIdx _ _ _ _ he with he | he
    · have := hinv.bounded e he
      omega
    · subst he
      simp [hcp]
  · -- staleBound
    simp only [List.length_append]
    have hsum := sumLens_insertIdx st.index k cpNew
    have hsb := hinv.staleBound
    cases ho : (insertIdx st.index k cpNew).1 with
    | none =>
      rw [ho] at hsum
      simp only at hsum ⊢
      have hlen : cpNew.len = (serCmd (.Set k v)).length := rfl
      omega
    | some old =>
      rw [ho] at hsum
      simp only at hsum ⊢
      have hlen : cpNew.len = (serCmd (.Set k v)).length := rfl
      omega
  · -- compactFile
    exact hinv.compactNone
  · -- replayOk
    obtain ⟨cmds, hlog, hfold⟩ := hinv.replayOk
    refine ⟨cmds ++ [.Set k v], ?_, ?_⟩
    · rw [logOf_append, logOf_single, hlog]
    · rw [List.foldl_append, hfold]
      simp only [List.foldl_cons, List.foldl_nil, replayStep, List.length_append]


theorem removeRaw_eq (st : KvState) (k : String) :
    st.removeRaw k =
      { st with
          index := (removeIdx st.index k).2
          log := st.log ++ serCmd (.Rm k)
          stale := st.stale +
            (match (removeIdx st.index k).1 with | some old => old.len | none => 0) } := rfl

theorem inv_removeRaw (st : KvState) (m : String → Option String) (k : String) (hinv : Inv st m) :
    Inv (st.removeRaw k) (fun q => if k = q then none else m q) := by
  rw [removeRaw_eq]
  constructor
  · -- present
    intro q cp hq
    simp only at hq
    by_cases hqk : q = k
    · subst hqk
      rw [lookup_removeIdx_self _ _ hinv.keysNodup] at hq
      exact Option.noConfusion hq
    · rw [lookup_removeIdx_ne _ _ _ hqk] at hq
      obtain ⟨v1, hm1, hok⟩ := hinv.present q cp hq
      exact ⟨v1, by rw [if_neg (fun hh => hqk hh.symm)]; exact hm1,
        entryOk_append _ _ _ _ _ hok⟩
  · -- absent
    intro q hq
    simp only at hq
    by_cases hqk : q = k
    · subst hqk
      rw [if_pos rfl]
    · rw [lookup_removeIdx_ne _ _ _ hqk] at hq
      rw [if_neg (fun hh => hqk hh.symm)]
      exact hinv.absent q hq
  · -- keysNodup
    exact nodup_removeIdx _ _ hinv.keysNodup
  · -- bounded
    intro e he
    simp only at he
    simp only [List.length_append]
    have := hinv.bounded e (mem_removeIdx _ _ _ he)
    omega
  · -- staleBound
    simp only [List.length_append]
    have hsum := sumLens_removeIdx st.index k
    have hsb := hinv.staleBound
    cases ho : (removeIdx st.index k).1 with
    | none =>
      rw [ho] at hsum
      simp only at hsum ⊢
      omega
    | some old =>
      rw [ho] at hsum
      simp only at hsum ⊢
      omega
  · -- compactFile
    exact hinv.compactNone
  · -- replayOk
    obtain ⟨cmds, hlog, hfold⟩ := hinv.replayOk
    refine ⟨cmds ++ [.Rm k], ?_, ?_⟩
    · rw [logOf_append, logOf_single, hlog]
    · rw [List.foldl_append, hfold]
      simp only [List.foldl_cons, List.foldl_nil, replayStep, List.length_append]


theorem lookup_of_forall2 {R : (String × CommandPos) → (String × CommandPos) → Prop}
    (hkey : ∀ e o, R e o → o.1 = e.1) (l l' : Index) (hf : List.Forall₂ R l l') (q : String) :
    ∀ cp', lookupIdx l' q = some cp' → ∃ cp, lookupIdx l q = some cp ∧ R (q, cp) (q, cp') := by
  induction hf with
  | nil =>
    intro cp' h
    simp [lookupIdx] at h
  | cons hR hfr ih =>
    rename_i a b l1 l2
    intro cp' h
    obtain ⟨a1, a2⟩ := a
    obtain ⟨b1, b2⟩ := b
    have hb1 : b1 = a1 := hkey _ _ hR
    rw [lookupIdx] at h ⊢
    by_cases hqa : a1 = q
    · rw [if_pos (by rw [hb1, hqa])] at h
      injection h with h
      subst h
      rw [if_pos hqa]
      refine ⟨a2, rfl, ?_⟩
      rw [← hqa]
      rwa [hb1] at hR
    · rw [if_neg (by rw [hb1]; exact hqa)] at h
      rw [if_neg hqa]
      exact ih cp' h


theorem compact_replay_aux (log : List Char) (entries : Index) :
    ∀ acc idx0 stale0,
      (∀ e ∈ entries, ∃ v, sliceAt log e.2 = serCmd (.Set e.1 v)) →
      (entries.map Prod.fst).Nodup →
      (∀ q ∈ entries.map Prod.fst, lookupIdx idx0 q = none) →
      ∃ cmds, (copyEntries entries log acc).2 = acc ++ logOf cmds ∧
        cmds.foldl replayStep (acc.length, idx0, stale0) =
          ((copyEntries entries log acc).2.length, idx0 ++ (copyEntries entries log acc).1,
            stale0) := by
  induction entries with
  | nil =>
    intro acc idx0 stale0 _ _ _
    exact ⟨[], by simp [copyEntries, logOf], by simp [copyEntries]⟩
  | cons e rest ih =>
    intro acc idx0 stale0 hval hnd hfresh
    obtain ⟨k, cp⟩ := e
    obtain ⟨v, hv⟩ := hval (k, cp) (List.mem_cons_self _ _)
    simp only at hv
    simp only [List.map_cons, List.nodup_cons] at hnd
    have hk0 : lookupIdx idx0 k = none :=
      hfresh k (by simp)
    set s := sliceAt log cp with hs
    set cpNew : CommandPos := ⟨acc.length, s.length⟩ with hcp
    have hfresh1 : ∀ q ∈ rest.map Prod.fst, lookupIdx (idx0 ++ [(k, cpNew)]) q = none := by
      intro q hq
      refine lookup_append_single_none idx0 k q cpNew (hfresh q (by simp [hq])) ?_
      intro hkq
      exact hnd.1 (hkq ▸ hq)
    obtain ⟨cmds1, hw1, hfold1⟩ :=
      ih (acc ++ s) (idx0 ++ [(k, cpNew)]) stale0
        (fun e he => hval e (List.mem_cons_of_mem _ he)) hnd.2 hfresh1
    have hlogc : logOf (.Set k v :: cmds1) = serCmd (.Set k v) ++ logOf cmds1 := by
      simp [logOf]
    refine ⟨.Set k v :: cmds1, ?_, ?_⟩
    · show (copyEntries rest log (acc ++ s)).2 = _
      rw [hw1, hlogc, ← hv, ← List.append_assoc]
    · rw [List.foldl_cons]
      have hstep : replayStep (acc.length, idx0, stale0) (.Set k v) =
          ((acc ++ s).length, idx0 ++ [(k, cpNew)], stale0) := by
        simp only [replayStep, insertIdx_absent idx0 k _ hk0, List.length_append]
        rw [← hv]
        rfl
      rw [hstep, hfold1]
      show _ = ((copyEntries rest log (acc ++ s)).2.length,
        idx0 ++ (k, cpNew) :: (copyEntries rest log (acc ++ s)).1, stale0)
      simp


theorem compact_eq (st : KvState) (h : st.compactFile = none) :
    st.compact = { index := (copyEntries st.index st.log []).1
                   log := (copyEntries st.index st.log []).2
                   compactFile := none
                   stale := 0 } := by
  simp [KvState.compact, h]

theorem inv_compact (st : KvState) (m : String → Option String) (hinv : Inv st m) :
    Inv st.compact m := by
  rw [compact_eq st hinv.compactNone]
  set out := (copyEntries st.index st.log []).1 with hout
  set w := (copyEntries st.index st.log []).2 with hw
  have hconsec : Consec out 0 := by
    have := copyEntries_consec st.index st.log []
    simpa using this
  have hlen : w.length = sumLens out := by
    have := copyEntries_length st.index st.log []
    simpa using this
  have hbound : ∀ e ∈ out, e.2.pos + e.2.len ≤ w.length := by
    intro e he
    have := (consec_bounds out 0 hconsec e he).2
    omega
  have hkeys : out.map Prod.fst = st.index.map Prod.fst := copyEntries_fst st.index st.log []
  have hf2 := copyEntries_forall2 st.index st.log []
  constructor
  · -- present
    intro q cp' hq
    obtain ⟨cp, hlk, hR⟩ :=
      lookup_of_forall2 (fun e o hR => hR.1) st.index out hf2 q cp' hq
    obtain ⟨v, hm, hok⟩ := hinv.present q cp hlk
    refine ⟨v, hm, ?_, ?_, ?_⟩
    · show sliceAt w cp' = _
      have h3 := hR.2.2
      simp only at h3
      rw [← hw] at h3
      exact h3.trans hok.1
    · have h2 := hR.2.1
      simp only at h2
      rw [h2, hok.1]
    · exact hbound (q, cp') (mem_of_lookup out q cp' hq)
  · -- absent
    intro q hq
    rw [lookup_eq_none_iff, hkeys, ← lookup_eq_none_iff] at hq
    exact hinv.absent q hq
  · -- keysNodup
    rw [hkeys]
    exact hinv.keysNodup
  · -- bounded
    exact hbound
  · -- staleBound
    simp only
    omega
  · -- compactFile
    rfl
  · -- replayOk
    have hval : ∀ e ∈ st.index, ∃ v, sliceAt st.log e.2 = serCmd (.Set e.1 v) := by
      intro e he
      obtain ⟨k, cp⟩ := e
      have hlk := lookup_of_mem st.index k cp hinv.keysNodup he
      obtain ⟨v, _, hok⟩ := hinv.present k cp hlk
      exact ⟨v, hok.1⟩
    obtain ⟨cmds, hw1, hfold1⟩ :=
      compact_replay_aux st.log st.index [] [] 0 hval hinv.keysNodup
        (fun q _ => rfl)
    refine ⟨cmds, ?_, ?_⟩
    · rw [← hw] at hw1
      simpa using hw1
    · simpa using hfold1


theorem inv_set (st : KvState) (m : String → Option String) (k v : String) (hinv : Inv st m) :
    Inv (st.set k v) (fun q => if k = q then some v else m q) := by
  have h1 := inv_setRaw st m k v hinv
  simp only [KvState.set]
  split
  · exact inv_compact _ _ h1
  · exact h1

theorem remove_absent (st : KvState) (k : String) (h : lookupIdx st.index k = none) :
    st.remove k = (st, .error .KeyNotFound) := by
  simp [KvState.remove, h]

theorem remove_present (st : KvState) (k : String) (cp : CommandPos)
    (h : lookupIdx st.index k = some cp) :
    st.remove k =
      (if THRESHOLD < (st.removeRaw k).stale then (st.removeRaw k).compact
       else st.removeRaw k, .ok ()) := by
  simp [KvState.remove, h]

theorem inv_remove (st : KvState) (m : String → Option String) (k : String) (cp : CommandPos)
    (hl : lookupIdx st.index k = some cp) (hinv : Inv st m) :
    Inv (st.remove k).1 (fun q => if k = q then none else m q) := by
  have h1 := inv_removeRaw st m k hinv
  rw [remove_present st k cp hl]
  simp only
  split
  · exact inv_compact _ _ h1
  · exact h1

theorem inv_runOp (st : KvState) (m : String → Option String) (op : Op) (hinv : Inv st m) :
    Inv (runOp st op) (specStep m op) := by
  cases op with
  | set k v => exact inv_set st m k v hinv
  | remove k =>
    cases hl : lookupIdx st.index k with
    | some cp =>
      have := inv_remove st m k cp hl hinv
      simpa [runOp, specStep] using this
    | none =>
      have hmeq : specStep m (.remove k) = m := by
        funext q
        simp only [specStep]
        by_cases hq : k = q
        · rw [if_pos hq, ← hq]
          exact (hinv.absent k hl).symm
        · rw [if_neg hq]
      rw [hmeq]
      simpa [runOp, remove_absent st k hl] using hinv
  | get k =>
    simpa [runOp, specStep] using hinv

theorem inv_foldl (ops : List Op) :
    ∀ st m, Inv st m → Inv (ops.foldl runOp st) (specFold m ops) := by
  induction ops with
  | nil =>
    intro st m h
    exact h
  | cons op ops ih =>
    intro st m h
    rw [List.foldl_cons]
    exact ih _ _ (inv_runOp st m op h)

theorem inv_runOps (ops : List Op) : Inv (runOps ops) (specFold (fun _ => none) ops) :=
  inv_foldl ops freshState _ inv_fresh


/-! ## Claims -/

theorem card_liveBytes_le (idx : Index) : (liveBytes idx).card ≤ sumLens idx := by
  induction idx with
  | nil => simp [liveBytes, sumLens]
  | cons e rest ih =>
    have hfold : liveBytes (e :: rest) =
        Finset.Ico e.2.pos (e.2.pos + e.2.len) ∪ liveBytes rest := rfl
    rw [hfold]
    simp only [sumLens, List.map_cons, List.sum_cons]
    have hu := Finset.card_union_le (Finset.Ico e.2.pos (e.2.pos + e.2.len)) (liveBytes rest)
    have hico : (Finset.Ico e.2.pos (e.2.pos + e.2.len)).card = e.2.len := by
      rw [Nat.card_Ico]
      omega
    simp only [sumLens] at ih
    omega

/-- Claim C1: after any sequence of operations on a fresh engine, `get`
returns exactly the value of the most recent `set` not followed by a
`remove`, and `None` otherwise. -/
theorem c1_get_follows_spec (ops : List Op) (k : String) :
    (runOps ops).get k = .ok (specGet ops k) :=
  get_of_inv _ _ (inv_runOps ops) k

/-- Claim C2: opening a second engine on the directory left by a
sequence of operations yields the same `get` results for every key. -/
theorem c2_persistence (ops : List Op) :
    ∃ st2, openStore (KvState.dirOf (runOps ops)) = .ok st2 ∧
      ∀ k, st2.get k = (runOps ops).get k := by
  have hinv := inv_runOps ops
  obtain ⟨cmds, hlog, hfold⟩ := hinv.replayOk
  have hre : replay (runOps ops).log = .ok ((runOps ops).index, (runOps ops).stale) := by
    rw [hlog, replay_logOf cmds, hfold]
  refine ⟨runOps ops, ?_, fun k => rfl⟩
  simp only [openStore, KvState.dirOf, Option.getD]
  rw [hre]


/-- Claim C5: `remove` on an absent key fails with `KeyNotFound` and the
engine state — log, index and stale counter — is unchanged. -/
theorem c5_remove_absent (st : KvState) (k : String) (h : lookupIdx st.index k = none) :
    st.remove k = (st, .error .KeyNotFound) ∧
    (st.remove k).1.log = st.log ∧
    (st.remove k).1.index = st.index ∧
    (st.remove k).1.stale = st.stale := by
  rw [remove_absent st k h]
  exact ⟨rfl, rfl, rfl, rfl⟩

theorem c5_witness :
    freshState.remove "missing" = (freshState, .error .KeyNotFound) ∧
    (freshState.remove "missing").1.log = freshState.log ∧
    (freshState.remove "missing").1.index = freshState.index ∧
    (freshState.remove "missing").1.stale = freshState.stale :=
  c5_remove_absent freshState "missing" (by decide)

/-- Claim C9: serializing a record and parsing the bytes back yields the
original record, for `Set` with non-empty key and value and for `Rm`
with a non-empty key. -/
theorem c9_roundtrip (k v : String) (_hk : k ≠ "") (_hv : v ≠ "") :
    parseOne (serCmd (.Set k v)) = some (.Set k v, []) ∧
    parseOne (serCmd (.Rm k)) = some (.Rm k, []) :=
  ⟨parseOne_ser_nil _, parseOne_ser_nil _⟩

theorem c9_witness :
    parseOne (serCmd (.Set "a" "1")) = some (.Set "a" "1", []) ∧
    parseOne (serCmd (.Rm "a")) = some (.Rm "a", []) :=
  c9_roundtrip "a" "1" (by decide) (by decide)

/-- Claim C4 counterexample: an index entry pointing at a `Rm` record
makes `get` return `Ok(None)`, not a `Corruption` error — the code's
`else` branch returns a non-error result. -/
theorem c4_cex : KvState.get c4State "k" = .ok none ∧
    KvState.get c4State "k" ≠ .error .Corruption := by
  constructor
  · decide
  · decide

/-- Claim C4 amended: when `get` finds an index entry whose slice decodes
to a record that is not a `Set`, it returns `Ok(None)` (the non-error
"not present" result) rather than a `Corruption` error. -/
theorem c4_amended (st : KvState) (k : String) (cp : CommandPos) (c : Commands)
    (rest : List Char) (h1 : lookupIdx st.index k = some cp)
    (h2 : parseOne (sliceAt st.log cp) = some (c, rest))
    (h3 : (skipWs rest).isEmpty = true)
    (h4 : ∀ k1 v1, c ≠ .Set k1 v1) :
    st.get k = .ok none := by
  simp only [KvState.get, h1, parseValue, h2, h3, if_true]

theorem c4_witness : KvState.get c4State "k" = .ok none :=
  c4_amended c4State "k" ⟨0, 18⟩ (.Rm "k") [] (by decide) (by decide) (by decide)
    (fun k1 v1 h => Commands.noConfusion h)

/-- Claim C6 counterexample: a successful `remove` adds only the removed
entry's length (31 here) to `stale_size`, not the length of the written
`Rm` record (18) on top of it. -/
theorem c6_cex :
    ((freshState.set "a" "1").remove "a").1.stale = (serCmd (.Set "a" "1")).length ∧
    ((freshState.set "a" "1").remove "a").1.stale ≠
      (serCmd (.Set "a" "1")).length + (serCmd (.Rm "a")).length := by
  constructor
  · decide
  · decide

/-- Claim C6 amended: a non-compacting `remove` adds exactly the removed
entry's length to `stale_size` (the `Rm` record's own bytes are not
counted), and replay of a `Set` followed by its `Rm` likewise counts only
the `Set` record's bytes as stale. -/
theorem c6_amended (st : KvState) (k : String) (cp : CommandPos)
    (h1 : lookupIdx st.index k = some cp) (h2 : st.stale + cp.len ≤ THRESHOLD) :
    ((st.remove k).1.stale = st.stale + cp.len ∧
      (st.remove k).1.log = st.log ++ serCmd (.Rm k)) ∧
    ∀ k1 v1, replay (serCmd (.Set k1 v1) ++ serCmd (.Rm k1)) =
      .ok ([], (serCmd (.Set k1 v1)).length) := by
  constructor
  · have hst : (st.removeRaw k).stale = st.stale + cp.len := by
      rw [removeRaw_eq]
      simp only [removeIdx_fst_eq_lookup, h1]
    have hlog : (st.removeRaw k).log = st.log ++ serCmd (.Rm k) := rfl
    rw [remove_present st k cp h1]
    simp only
    rw [if_neg (by rw [hst]; omega)]
    exact ⟨hst, hlog⟩
  · intro k1 v1
    have hl : serCmd (.Set k1 v1) ++ serCmd (.Rm k1) = logOf [.Set k1 v1, .Rm k1] := by
      simp [logOf]
    rw [hl, replay_logOf]
    simp [replayStep, insertIdx, removeIdx]

theorem c6_witness :
    (((freshState.set "a" "1").remove "a").1.stale =
      (freshState.set "a" "1").stale + 31 ∧
      ((freshState.set "a" "1").remove "a").1.log =
        (freshState.set "a" "1").log ++ serCmd (.Rm "a")) :=
  (c6_amended (freshState.set "a" "1") "a" ⟨0, 31⟩ (by decide) (by decide)).1


/-- Claim C3 counterexample: `open` does not delete an existing
`kvs.compact.log` — after the crash-mid-compaction scenario the file is
still present after reopening. -/
theorem c3_cex : openStore c3Dir = .ok c3Opened ∧ c3Opened.compactFile ≠ none := by
  constructor
  · decide
  · decide

/-- Claim C3 amended: `open` never touches `kvs.compact.log` (the opened
engine sees exactly the directory's compact file), and in the
crash-mid-compaction scenario reopening still answers both gets from
`kvs.log` while the orphan `kvs.compact.log` continues to exist. -/
theorem c3_amended :
    (∀ d st1, openStore d = .ok st1 → st1.compactFile = d.compactFile) ∧
    (openStore c3Dir = .ok c3Opened ∧ c3Opened.get "a" = .ok (some "1") ∧
      c3Opened.get "b" = .ok (some "2") ∧ c3Opened.compactFile = some c3Partial) := by
  constructor
  · intro d st1 h
    simp only [openStore] at h
    cases hre : replay (d.logFile.getD []) with
    | error e =>
      rw [hre] at h
      exact Except.noConfusion h
    | ok p =>
      obtain ⟨idx, stale⟩ := p
      rw [hre] at h
      injection h with h
      rw [← h]
  · refine ⟨by decide, by decide, by decide, by decide⟩

theorem c3_witness : openStore c3Dir = .ok c3Opened ∧ c3Opened.compactFile = c3Dir.compactFile :=
  ⟨by decide, c3_amended.1 c3Dir c3Opened (by decide)⟩

/-- Claim C7 counterexample: after `set("a","1"); remove("a")` the log
holds 49 unreachable characters but `stale_size` is only 31, so
`stale_size` is not an upper bound on the unreachable bytes. -/
theorem c7_cex :
    ¬ (unreachableBytes ((freshState.set "a" "1").remove "a").1 ≤
        ((freshState.set "a" "1").remove "a").1.stale) := by
  decide

/-- Claim C7 amended: along any execution from a fresh directory,
`stale_size` is a non-negative lower bound on the bytes of the log not
covered by any live index entry (the `Rm` records' own bytes are
unreachable but never counted). -/
theorem c7_amended (ops : List Op) :
    (runOps ops).stale ≤ unreachableBytes (runOps ops) := by
  have hinv := inv_runOps ops
  have hsb := hinv.staleBound
  have hlb := card_liveBytes_le (runOps ops).index
  have hsplit :=
    Finset.filter_card_add_filter_neg_card_eq_card
      (s := Finset.range (runOps ops).log.length)
      (p := fun i => i ∈ liveBytes (runOps ops).index)
  have hsub : ((Finset.range (runOps ops).log.length).filter
      (fun i => i ∈ liveBytes (runOps ops).index)).card ≤
      (liveBytes (runOps ops).index).card := by
    apply Finset.card_le_card
    intro i hi
    exact (Finset.mem_filter.mp hi).2
  have hcard : (Finset.range (runOps ops).log.length).card = (runOps ops).log.length :=
    Finset.card_range _
  simp only [unreachableBytes]
  omega


/-- Claim C8: compaction is idempotent — after any operation sequence,
compacting twice equals compacting once, the once-compacted log has no
stale (unreachable) bytes left for the second compaction to drop, and
every key's `get` result is unchanged by the second compaction. -/
theorem c8_compact_idempotent (ops : List Op) :
    KvState.compact (KvState.compact (runOps ops)) = KvState.compact (runOps ops) ∧
    unreachableBytes (KvState.compact (runOps ops)) = 0 ∧
    ∀ k, (KvState.compact (KvState.compact (runOps ops))).get k =
      (KvState.compact (runOps ops)).get k := by
  have hinv := inv_runOps ops
  have hcn := hinv.compactNone
  have h1 : ((runOps ops).compact).compact = (runOps ops).compact := by
    rw [compact_eq _ hcn]
    rw [compact_eq _ rfl]
    simp only [copyEntries_idem (runOps ops).index (runOps ops).log []]
  refine ⟨h1, ?_, fun k => by rw [h1]⟩
  rw [compact_eq _ hcn]
  simp only [unreachableBytes]
  rw [Finset.card_eq_zero, Finset.filter_eq_empty_iff]
  intro i hi
  simp only [Finset.mem_range] at hi
  simp only [Decidable.not_not]
  have hcons : Consec (copyEntries (runOps ops).index (runOps ops).log []).1 0 := by
    have := copyEntries_consec (runOps ops).index (runOps ops).log []
    simpa using this
  have hlen : (copyEntries (runOps ops).index (runOps ops).log []).2.length =
      sumLens (copyEntries (runOps ops).index (runOps ops).log []).1 := by
    have := copyEntries_length (runOps ops).index (runOps ops).log []
    simpa using this
  exact consec_live _ 0 i hcons (Nat.zero_le i) (by omega)

/-- Claim C10: compaction opens `kvs.compact.log` without truncation —
with a pre-existing longer file the renamed `kvs.log` is the live
records followed by the old file's trailing bytes, and a subsequent
`open` feeds that whole log to the record parser. -/
theorem c10_no_truncate (st : KvState) (e : List Char)
    (h1 : st.compactFile = some e)
    (h2 : (copyEntries st.index st.log []).2.length < e.length) :
    st.compact.log =
      (copyEntries st.index st.log []).2 ++
        e.drop (copyEntries st.index st.log []).2.length ∧
    e.drop (copyEntries st.index st.log []).2.length ≠ [] ∧
    ((∃ err, openStore st.compact.dirOf = .error err) ∨
      ∃ st1, openStore st.compact.dirOf = .ok st1 ∧ st1.log = st.compact.log) := by
  refine ⟨?_, ?_, ?_⟩
  · simp [KvState.compact, h1]
  · intro hnil
    have := List.drop_eq_nil_iff.mp hnil
    omega
  · cases hre : replay st.compact.log with
    | error err =>
      refine Or.inl ⟨err, ?_⟩
      simp only [openStore, KvState.dirOf, Option.getD]
      rw [hre]
    | ok p =>
      obtain ⟨idx, stale⟩ := p
      refine Or.inr ⟨⟨idx, st.compact.log, st.compact.compactFile, stale⟩, ?_, rfl⟩
      simp only [openStore, KvState.dirOf, Option.getD]
      rw [hre]

theorem c10_witness :
    c10State.compact.log =
      (copyEntries c10State.index c10State.log []).2 ++
        c10File.drop (copyEntries c10State.index c10State.log []).2.length ∧
    c10File.drop (copyEntries c10State.index c10State.log []).2.length ≠ [] :=
  ⟨(c10_no_truncate c10State c10File rfl (by decide)).1,
   (c10_no_truncate c10State c10File rfl (by decide)).2.1⟩


end Kvs
